import Mathlib

/-!
Verification development for the mobile-dev-agent core: a shallow embedding of
the UI-snapshot canonicalization, selector resolution, and run-artifact
retention (GC) subsystems, with theorems settling the frozen claims about them.

Modelling conventions:
* JavaScript numbers that the code only ever uses as integral pixel
  coordinates, byte counts, and millisecond timestamps are modelled as `Int`
  (sizes as `Nat` where the source can only produce non-negative values).
* JavaScript objects used as string-keyed maps are modelled as association
  lists (`List (String × α)`) with insert-or-overwrite semantics, which
  preserves JS insertion order and lookup behaviour.
* Functions that `throw` are modelled with `Except String`.
-/

set_option autoImplicit false

/-- Decidable equality for `Except`, used to evaluate the embedded fallible
functions on concrete inputs. -/
instance {ε α : Type} [DecidableEq ε] [DecidableEq α] : DecidableEq (Except ε α)
  | .ok a, .ok b =>
    if h : a = b then .isTrue (by rw [h]) else .isFalse (by intro hh; cases hh; exact h rfl)
  | .error a, .error b =>
    if h : a = b then .isTrue (by rw [h]) else .isFalse (by intro hh; cases hh; exact h rfl)
  | .ok _, .error _ => .isFalse (by intro hh; cases hh)
  | .error _, .ok _ => .isFalse (by intro hh; cases hh)

/-- Rectangle `{x, y, w, h}` in platform-native pixel coordinates
(`src/lib/uiSnapshot.ts`, type `Bounds`). -/
structure Bounds where
  x : Int
  y : Int
  w : Int
  h : Int
deriving DecidableEq, Repr

/-- Element state booleans (`src/lib/uiSnapshot.ts`, type `ElementStates`). -/
structure ElementStates where
  enabled : Bool
  visible : Bool
  focused : Bool
  checked : Bool
deriving DecidableEq, Repr

/-- iOS selector namespace of a canonical element. -/
structure IOSSelectors where
  id : Option String
  label : Option String
deriving DecidableEq, Repr

/-- Android selector namespace of a canonical element.  The source field
names are `resource_id`, `content_desc` and `class`; `class` is a Lean
keyword, so the field is named `className` here. -/
structure AndroidSelectors where
  resource_id : Option String
  content_desc : Option String
  className : Option String
deriving DecidableEq, Repr

/-- Both selector namespaces of a canonical element. -/
structure ElementSelectors where
  ios : IOSSelectors
  android : AndroidSelectors
deriving DecidableEq, Repr

/-- A canonical element (`src/lib/uiSnapshot.ts`, type `CanonicalElement`). -/
structure CanonicalElement where
  ref : String
  role : String
  name : String
  value : Option String
  bounds : Bounds
  states : ElementStates
  selectors : ElementSelectors
deriving DecidableEq, Repr

/-- A pre-canonical element: `Omit<CanonicalElement, "ref">` in the source —
everything of a canonical element except the not-yet-assigned `ref`. -/
structure PreElement where
  role : String
  name : String
  value : Option String
  bounds : Bounds
  states : ElementStates
  selectors : ElementSelectors
deriving DecidableEq, Repr

/-- Spreading a pre-canonical element with an assigned ref:
`{ ...elements[i], ref }` in `assignRefs`. -/
def withRef (e : PreElement) (r : String) : CanonicalElement :=
  { ref := r, role := e.role, name := e.name, value := e.value,
    bounds := e.bounds, states := e.states, selectors := e.selectors }

/-- The decimal digit character for `d < 10` (used to model JS number →
string conversion in template literals such as the ref `e${i + 1}`). -/
def digitChar (d : Nat) : Char :=
  Char.ofNat (48 + d)

/-- Little-endian base-10 digits of `n`, computed with a structural fuel
argument so that it reduces inside the kernel; `natDigitsGo_eq_digits`
identifies it with `Nat.digits 10`. -/
def natDigitsGo : Nat → Nat → List Nat
  | 0, _ => []
  | _ + 1, 0 => []
  | fuel + 1, n + 1 => ((n + 1) % 10) :: natDigitsGo fuel ((n + 1) / 10)

/-- Little-endian base-10 digits of `n`. -/
def natDigitsLE (n : Nat) : List Nat :=
  natDigitsGo n n

/-- Decimal rendering of a natural number, exactly as JS renders an integral
number into a template literal: most-significant digit first, no leading
zeros, `0` rendered as `"0"`. -/
def natToString (n : Nat) : String :=
  if n = 0 then "0" else String.mk ((natDigitsLE n).reverse.map digitChar)

/-- Decimal rendering of an integer, as JS renders an integral number. -/
def intToString (n : Int) : String :=
  if n < 0 then "-" ++ natToString (-n).toNat else natToString n.toNat

/-- Big-endian digit-character list folded back into a natural number
(the value of a digit run, as `Number` computes it on a digit string). -/
def charsToNat (cs : List Char) : Nat :=
  cs.foldl (fun a c => 10 * a + (c.toNat - 48)) 0

/-- Insert-or-overwrite on a string-keyed association list: the model of a
JS object assignment `obj[k] = v`.  An existing entry for `k` is replaced in
place (JS keeps the original insertion position); otherwise the entry is
appended (JS appends new string keys in insertion order). -/
def recordSet {α : Type} (m : List (String × α)) (k : String) (v : α) :
    List (String × α) :=
  if m.any (fun p => p.1 = k) then
    m.map (fun p => if p.1 = k then (k, v) else p)
  else
    m ++ [(k, v)]

/-- Loop body of `assignRefs` (`src/lib/uiSnapshot.ts` lines 57–67): `i` is
the current index, the accumulator holds the `out` array and the `refs`
record built so far. -/
def assignRefsGo (i : Nat) (els : List PreElement)
    (acc : List CanonicalElement × List (String × CanonicalElement)) :
    List CanonicalElement × List (String × CanonicalElement) :=
  match els with
  | [] => acc
  | e :: es =>
    let r := "e" ++ natToString (i + 1)
    let el := withRef e r
    assignRefsGo (i + 1) es (acc.1 ++ [el], recordSet acc.2 r el)

/-- `assignRefs` (`src/lib/uiSnapshot.ts`): assigns refs `e1`, `e2`, … to the
elements in input order and builds the `refs` record. -/
def assignRefs (els : List PreElement) :
    List CanonicalElement × List (String × CanonicalElement) :=
  assignRefsGo 0 els ([], [])

/-- Hex digit used by the JSON string escape `\u00XX` (lowercase, as
`JSON.stringify` emits). -/
def jsHexDigit (n : Nat) : Char :=
  if n < 10 then Char.ofNat (48 + n) else Char.ofNat (87 + n)

/-- Escape of one character inside a JSON string literal, following
`JSON.stringify`: `"` and `\` are backslash-escaped, the named control
characters use their short escapes, other control characters use `\u00XX`. -/
def jsEscapeChar (c : Char) : List Char :=
  if c = '"' then ['\\', '"']
  else if c = '\\' then ['\\', '\\']
  else if c = '\x08' then ['\\', 'b']
  else if c = '\x0c' then ['\\', 'f']
  else if c = '\n' then ['\\', 'n']
  else if c = '\r' then ['\\', 'r']
  else if c = '\t' then ['\\', 't']
  else if c.toNat < 32 then
    ['\\', 'u', '0', '0', jsHexDigit (c.toNat / 16), jsHexDigit (c.toNat % 16)]
  else [c]

/-- `JSON.stringify` on a string value (scalar-value model; lone surrogates
do not arise for Lean `Char`). -/
def jsStringify (s : String) : String :=
  "\"" ++ String.mk (s.toList.map jsEscapeChar).flatten ++ "\""

/-- One line of the rendered tree (`renderTree` map body). -/
def renderTreeLine (e : CanonicalElement) : String :=
  "@" ++ e.ref ++ " [" ++ e.role ++ "] " ++
    (if e.name ≠ "" then jsStringify e.name else "\"\"") ++
    " (" ++ intToString e.bounds.x ++ "," ++ intToString e.bounds.y ++ "," ++
    intToString e.bounds.w ++ "," ++ intToString e.bounds.h ++ ")"

/-- `renderTree` (`src/lib/uiSnapshot.ts`): one line per element joined by
newlines. -/
def renderTree (els : List CanonicalElement) : String :=
  String.intercalate "\n" (els.map renderTreeLine)

/-- Platform tag of a snapshot. -/
inductive Platform where
  | ios
  | android
deriving DecidableEq, Repr

/-- A UI snapshot (`src/lib/uiSnapshot.ts`, type `UISnapshot`).  The `refs`
record is modelled as an association list. -/
structure UISnapshot where
  snapshot_id : String
  taken_at : String
  platform : Platform
  device_id : Option String
  app_id : Option String
  tree : String
  elements : List CanonicalElement
  refs : List (String × CanonicalElement)
deriving DecidableEq, Repr

/-- `buildSnapshot` (`src/lib/uiSnapshot.ts`).  In the source `snapshot_id`
is a fresh random UUID and `taken_at` the current instant; both are
effectful and appear here as parameters. -/
def buildSnapshot (platform : Platform) (deviceId appId : Option String)
    (els : List PreElement) (snapshotId takenAt : String) : UISnapshot :=
  let assigned := assignRefs els
  { snapshot_id := snapshotId
    taken_at := takenAt
    platform := platform
    device_id := deviceId
    app_id := appId
    tree := renderTree assigned.1
    elements := assigned.1
    refs := assigned.2 }

/-! ### Decimal rendering facts

The ref strings `e1`, `e2`, … and the Android bounds literal both depend on
decimal digit runs; the key fact is that `natToString` is inverted by
`charsToNat`, which yields injectivity and the absence of leading zeros. -/

theorem natDigitsGo_eq_digits (fuel n : Nat) (h : n ≤ fuel) :
    natDigitsGo fuel n = Nat.digits 10 n := by
  induction fuel generalizing n with
  | zero =>
    interval_cases n
    simp [natDigitsGo]
  | succ fuel ih =>
    match n with
    | 0 => simp [natDigitsGo]
    | n + 1 =>
      rw [natDigitsGo, Nat.digits_def' (b := 10) (by omega) (Nat.succ_pos n)]
      have hdiv : (n + 1) / 10 ≤ fuel := by
        have := Nat.div_lt_self (Nat.succ_pos n) (by omega : 1 < 10)
        omega
      rw [ih _ hdiv]

theorem natDigitsLE_eq_digits (n : Nat) : natDigitsLE n = Nat.digits 10 n :=
  natDigitsGo_eq_digits n n le_rfl

theorem digitChar_toNat {d : Nat} (hd : d < 10) : (digitChar d).toNat = 48 + d := by
  revert hd
  revert d
  decide

theorem digitChar_isDigit {d : Nat} (hd : d < 10) : (digitChar d).isDigit = true := by
  revert hd
  revert d
  decide

theorem charsToNat_append_digit (A : List Char) (c : Char) :
    charsToNat (A ++ [c]) = 10 * charsToNat A + (c.toNat - 48) := by
  simp [charsToNat, List.foldl_append]

theorem charsToNat_rev_digits (ds : List Nat) (h : ∀ d ∈ ds, d < 10) :
    charsToNat (ds.reverse.map digitChar) = Nat.ofDigits 10 ds := by
  induction ds with
  | nil => simp [charsToNat, Nat.ofDigits_nil]
  | cons d tl ih =>
    have hd : d < 10 := h d (by simp)
    have htl : ∀ x ∈ tl, x < 10 := fun x hx => h x (by simp [hx])
    rw [List.reverse_cons, List.map_append]
    simp only [List.map_cons, List.map_nil]
    rw [charsToNat_append_digit, ih htl]
    simp [Nat.ofDigits_cons, digitChar_toNat hd]
    omega

theorem charsToNat_natToString (n : Nat) :
    charsToNat (natToString n).toList = n := by
  by_cases h : n = 0
  · subst h
    decide
  · have h10 : (1 : Nat) < 10 := by omega
    have hds : ∀ d ∈ Nat.digits 10 n, d < 10 := fun d hd => Nat.digits_lt_base h10 hd
    have hl : (natToString n).toList = (Nat.digits 10 n).reverse.map digitChar := by
      simp [natToString, h, natDigitsLE_eq_digits]
    rw [hl, charsToNat_rev_digits _ hds, Nat.ofDigits_digits]

theorem natToString_injective : Function.Injective natToString := by
  intro a b h
  have ha := charsToNat_natToString a
  have hb := charsToNat_natToString b
  rw [h, hb] at ha
  omega

theorem natToString_ne_leading_zero_one (n : Nat) : natToString n ≠ "01" := by
  intro h
  have h1 : charsToNat (natToString n).toList = charsToNat "01".toList := by rw [h]
  rw [charsToNat_natToString] at h1
  have hn : n = 1 := by simpa [charsToNat] using h1
  subst hn
  exact absurd h (by decide)

theorem string_append_left_cancel {p s t : String} (h : p ++ s = p ++ t) : s = t := by
  have hd : (p ++ s).data = (p ++ t).data := by rw [h]
  rw [String.data_append, String.data_append] at hd
  have h2 := List.append_cancel_left hd
  cases s
  cases t
  exact congrArg String.mk h2

/-- The ref string assigned to the element at 0-based index `i`. -/
def refName (i : Nat) : String :=
  "e" ++ natToString (i + 1)

theorem refName_injective : Function.Injective refName := by
  intro i j h
  have h2 := string_append_left_cancel h
  have h3 := natToString_injective h2
  omega

theorem refName_ne_e01 (i : Nat) : refName i ≠ "e01" := by
  intro h
  have h2 : "e" ++ natToString (i + 1) = "e" ++ "01" := h
  exact natToString_ne_leading_zero_one (i + 1) (string_append_left_cancel h2)

/-! ### Claim C1: ref assignment builds the inverse index -/

/-- Closed form of the `out` array built by `assignRefs` starting at index `i`. -/
def elemsFrom (i : Nat) : List PreElement → List CanonicalElement
  | [] => []
  | e :: es => withRef e (refName i) :: elemsFrom (i + 1) es

/-- Closed form of the `refs` record built by `assignRefs` starting at index `i`. -/
def refsFrom (i : Nat) : List PreElement → List (String × CanonicalElement)
  | [] => []
  | e :: es => (refName i, withRef e (refName i)) :: refsFrom (i + 1) es

theorem refsFrom_keys (els : List PreElement) (i : Nat) (k : String)
    (hk : k ∈ (refsFrom i els).map Prod.fst) : ∃ j, i ≤ j ∧ k = refName j := by
  induction els generalizing i with
  | nil => simp [refsFrom] at hk
  | cons e es ih =>
    simp only [refsFrom, List.map_cons, List.mem_cons] at hk
    rcases hk with h | h
    · exact ⟨i, le_rfl, h⟩
    · obtain ⟨j, hij, hj⟩ := ih (i + 1) h
      exact ⟨j, by omega, hj⟩

theorem recordSet_of_fresh {α : Type} (m : List (String × α)) (k : String) (v : α)
    (h : ∀ p ∈ m, p.1 ≠ k) : recordSet m k v = m ++ [(k, v)] := by
  rw [recordSet, if_neg]
  simp only [List.any_eq_true, decide_eq_true_eq, not_exists, not_and]
  exact fun p hp => h p hp

theorem assignRefsGo_closed (els : List PreElement) (i : Nat)
    (o : List CanonicalElement) (m : List (String × CanonicalElement))
    (hm : ∀ j, i ≤ j → refName j ∉ m.map Prod.fst) :
    assignRefsGo i els (o, m) = (o ++ elemsFrom i els, m ++ refsFrom i els) := by
  induction els generalizing i o m with
  | nil => simp [assignRefsGo, elemsFrom, refsFrom]
  | cons e es ih =>
    have hfresh : ∀ p ∈ m, p.1 ≠ refName i := by
      intro p hp hpk
      exact hm i le_rfl (by
        simp only [List.mem_map]
        exact ⟨p, hp, hpk⟩)
    have hset : recordSet m (refName i) (withRef e (refName i)) =
        m ++ [(refName i, withRef e (refName i))] :=
      recordSet_of_fresh m _ _ hfresh
    have hm' : ∀ j, i + 1 ≤ j →
        refName j ∉ (m ++ [(refName i, withRef e (refName i))]).map Prod.fst := by
      intro j hj hmem
      simp only [List.map_append, List.mem_append, List.map_cons, List.map_nil,
        List.mem_cons, List.not_mem_nil, or_false] at hmem
      rcases hmem with h | h
      · exact hm j (by omega) h
      · have := refName_injective h.symm
        omega
    have hstep : assignRefsGo i (e :: es) (o, m) =
        assignRefsGo (i + 1) es (o ++ [withRef e (refName i)],
          m ++ [(refName i, withRef e (refName i))]) := by
      simp only [assignRefsGo]
      rw [show "e" ++ natToString (i + 1) = refName i from rfl, hset]
    rw [hstep, ih (i + 1) _ _ hm']
    simp [elemsFrom, refsFrom, List.append_assoc]

theorem assignRefs_closed (els : List PreElement) :
    assignRefs els = (elemsFrom 0 els, refsFrom 0 els) := by
  have h := assignRefsGo_closed els 0 [] [] (by intro j _ h; simp at h)
  simpa [assignRefs] using h

theorem elemsFrom_length (els : List PreElement) (i : Nat) :
    (elemsFrom i els).length = els.length := by
  induction els generalizing i with
  | nil => rfl
  | cons e es ih => simp [elemsFrom, ih]

theorem refsFrom_length (els : List PreElement) (i : Nat) :
    (refsFrom i els).length = els.length := by
  induction els generalizing i with
  | nil => rfl
  | cons e es ih => simp [refsFrom, ih]

theorem elemsFrom_getElem (els : List PreElement) (i j : Nat) (pre : PreElement)
    (hj : els[j]? = some pre) :
    (elemsFrom i els)[j]? = some (withRef pre (refName (i + j))) := by
  induction els generalizing i j with
  | nil => simp at hj
  | cons e es ih =>
    match j with
    | 0 =>
      simp only [List.getElem?_cons_zero, Option.some.injEq] at hj
      subst hj
      simp [elemsFrom]
    | j + 1 =>
      simp only [List.getElem?_cons_succ] at hj
      have hrec := ih (i + 1) j hj
      simp only [elemsFrom, List.getElem?_cons_succ]
      rw [show i + 1 + j = i + (j + 1) from by omega] at hrec
      exact hrec

theorem refsFrom_lookup (els : List PreElement) (i j : Nat) (pre : PreElement)
    (hj : els[j]? = some pre) :
    List.lookup (refName (i + j)) (refsFrom i els) =
      some (withRef pre (refName (i + j))) := by
  induction els generalizing i j with
  | nil => simp at hj
  | cons e es ih =>
    match j with
    | 0 =>
      simp only [List.getElem?_cons_zero, Option.some.injEq] at hj
      subst hj
      simp [refsFrom, List.lookup]
    | j + 1 =>
      simp only [List.getElem?_cons_succ] at hj
      have hne : refName (i + (j + 1)) ≠ refName i := by
        intro h
        have := refName_injective h
        omega
      have hstep := ih (i + 1) j hj
      have hbeq : (refName (i + (j + 1)) == refName i) = false :=
        beq_eq_false_iff_ne.mpr hne
      simp only [refsFrom, List.lookup, hbeq]
      have harg : i + 1 + j = i + (j + 1) := by omega
      rw [harg] at hstep
      exact hstep

theorem elemsFrom_refs (els : List PreElement) (i : Nat) (k : String)
    (hk : k ∈ (elemsFrom i els).map CanonicalElement.ref) :
    ∃ j, i ≤ j ∧ k = refName j := by
  induction els generalizing i with
  | nil => simp [elemsFrom] at hk
  | cons e es ih =>
    simp only [elemsFrom, List.map_cons, List.mem_cons] at hk
    rcases hk with h | h
    · exact ⟨i, le_rfl, h⟩
    · obtain ⟨j, hij, hj⟩ := ih (i + 1) h
      exact ⟨j, by omega, hj⟩

theorem elemsFrom_refs_nodup (els : List PreElement) (i : Nat) :
    ((elemsFrom i els).map CanonicalElement.ref).Nodup := by
  induction els generalizing i with
  | nil => simp [elemsFrom]
  | cons e es ih =>
    simp only [elemsFrom, List.map_cons, List.nodup_cons]
    refine ⟨?_, ih (i + 1)⟩
    intro hmem
    obtain ⟨j, hij, hj⟩ := elemsFrom_refs es (i + 1) _ hmem
    simp only [withRef] at hj
    have := refName_injective hj
    omega

/-- Claim C1 (confirmed): `assignRefs` assigns `e1`, `e2`, … sequentially in
input order; the refs record has exactly one entry per element; the entry at
key `e⟨i+1⟩` is exactly the `i`-th output element (the `i`-th input element
with that ref attached); and all assigned refs are distinct.  This makes the
refs record the inverse index of the elements list by ref. -/
theorem assignRefs_refs_inverse_index (els : List PreElement) :
    (assignRefs els).1.length = els.length ∧
    (assignRefs els).2.length = els.length ∧
    ((assignRefs els).1.map CanonicalElement.ref).Nodup ∧
    ∀ i, i < els.length →
      ∃ pre el, els[i]? = some pre ∧ (assignRefs els).1[i]? = some el ∧
        el = withRef pre ("e" ++ natToString (i + 1)) ∧
        el.ref = "e" ++ natToString (i + 1) ∧
        List.lookup ("e" ++ natToString (i + 1)) (assignRefs els).2 = some el := by
  rw [assignRefs_closed]
  refine ⟨elemsFrom_length els 0, refsFrom_length els 0, elemsFrom_refs_nodup els 0, ?_⟩
  intro i hi
  obtain ⟨pre, hpre⟩ : ∃ pre, els[i]? = some pre := by
    exact ⟨els[i], List.getElem?_eq_getElem hi⟩
  refine ⟨pre, withRef pre (refName i), hpre, ?_, ?_, ?_, ?_⟩
  · have := elemsFrom_getElem els 0 i pre hpre
    simpa using this
  · rfl
  · rfl
  · have := refsFrom_lookup els 0 i pre hpre
    simpa using this

/-- Witness for C1 at a concrete two-element input. -/
def preButton : PreElement :=
  { role := "button", name := "Sign in", value := none,
    bounds := ⟨10, 20, 100, 40⟩,
    states := ⟨true, true, false, false⟩,
    selectors := ⟨⟨some "btnSignIn", some "Sign in"⟩, ⟨none, none, none⟩⟩ }

/-- A second concrete pre-canonical element. -/
def preField : PreElement :=
  { role := "textbox", name := "Email", value := some "a@b.c",
    bounds := ⟨10, 80, 100, 30⟩,
    states := ⟨true, true, false, false⟩,
    selectors := ⟨⟨some "txtEmail", some "Email"⟩, ⟨none, none, none⟩⟩ }

theorem assignRefs_refs_inverse_index_witness :
    (0 : Nat) < [preButton, preField].length ∧
    ∃ pre el, [preButton, preField][0]? = some pre ∧
      (assignRefs [preButton, preField]).1[0]? = some el ∧
      el = withRef pre ("e" ++ natToString 1) ∧
      el.ref = "e" ++ natToString 1 ∧
      List.lookup ("e" ++ natToString 1) (assignRefs [preButton, preField]).2 = some el :=
  ⟨by decide, (assignRefs_refs_inverse_index [preButton, preField]).2.2.2 0 (by decide)⟩

/-! ### Selector parsing and resolution (`src/lib/selector.ts`) -/

/-- A parsed selector (`src/lib/selector.ts`, type `ParsedSelector`). -/
inductive ParsedSelector where
  | ref (r : String)
  | coords (x y : Int)
  | text (t : String)
  | id (v : String)
deriving DecidableEq, Repr

/-- The single-quote character, written by code point to keep the source free
of quote-literal noise. -/
def singleQuote : String :=
  String.mk [Char.ofNat 39]

/-- JS whitespace as used by `String.prototype.trim` (ASCII part; the exotic
Unicode space code points never appear in the inputs considered here). -/
def isJsSpace (c : Char) : Bool :=
  c = ' ' || c = '\t' || c = '\n' || c = '\r' || c = '\x0c' || c = '\x0b'

/-- JS `trim()`: strip whitespace from both ends.  Defined over the character
list so that it reduces inside the kernel. -/
def jsTrim (s : String) : String :=
  String.mk (((s.toList.dropWhile isJsSpace).reverse.dropWhile isJsSpace).reverse)

/-- JS `startsWith`: character-list version of the prefix test. -/
def strStartsWith (s p : String) : Bool :=
  List.isPrefixOf p.toList s.toList

/-- JS `endsWith`: character-list version of the suffix test. -/
def strEndsWith (s p : String) : Bool :=
  List.isPrefixOf p.toList.reverse s.toList.reverse

/-- JS `split(sep)` for a single-character separator: split at every
occurrence; an empty string yields `[""]`. -/
def splitOnChar (sep : Char) : List Char → List (List Char)
  | [] => [[]]
  | c :: rest =>
    let r := splitOnChar sep rest
    if c = sep then [] :: r
    else
      match r with
      | h :: t => (c :: h) :: t
      | [] => [[c]]

/-- JS `split(",")` on a string. -/
def splitComma (s : String) : List String :=
  (splitOnChar ',' s.toList).map String.mk

/-- `stripQuotes` (`src/lib/selector.ts`): trims, then removes one matching
pair of surrounding double or single quotes. -/
def stripQuotes (value : String) : String :=
  let v := jsTrim value
  if v = "" then ""
  else if (strStartsWith v "\"" && strEndsWith v "\"") ||
      (strStartsWith v singleQuote && strEndsWith v singleQuote) then
    (v.drop 1).dropRight 1
  else v

/-- The ref grammar `^e\d+$`: a lowercase `e` followed by one or more
decimal digits. -/
def isRefToken (r : String) : Bool :=
  match r.toList with
  | [] => false
  | c :: ds => c = 'e' && !ds.isEmpty && ds.all Char.isDigit

/-- JS `Number(...)` restricted to optionally-signed decimal integer
literals (with the JS quirk that an empty/whitespace string is `0`).  The
source only uses this for `coords:` tokens; fractional and exotic numeric
forms are not exercised by any claim. -/
def jsNumber (s : String) : Option Int :=
  let t := jsTrim s
  if t = "" then some 0
  else
    match t.toList with
    | '-' :: ds =>
      if !ds.isEmpty && ds.all Char.isDigit then some (-(charsToNat ds : Int)) else none
    | '+' :: ds =>
      if !ds.isEmpty && ds.all Char.isDigit then some (charsToNat ds : Int) else none
    | ds => if ds.all Char.isDigit then some (charsToNat ds : Int) else none

/-- `parseSelectorToken` (`src/lib/selector.ts`): classifies a selector token
by leading sigil/prefix; `usageError` throws are modelled as `Except.error`
with the thrown message. -/
def parseSelectorToken (token : String) : Except String ParsedSelector :=
  let t := jsTrim token
  if t = "" then .error "Empty selector"
  else if strStartsWith t "@" then
    let r := t.drop 1
    if isRefToken r then .ok (.ref r) else .error ("Invalid ref selector: " ++ token)
  else if strStartsWith t "coords:" then
    match splitComma (t.drop 7) with
    | [a, b] =>
      match jsNumber a, jsNumber b with
      | some x, some y => .ok (.coords x y)
      | _, _ => .error ("Invalid coords selector: " ++ token)
    | _ => .error ("Invalid coords selector: " ++ token)
  else if strStartsWith t "text:" then
    let v := stripQuotes (jsTrim (t.drop 5))
    if v = "" then .error ("Invalid text selector: " ++ token) else .ok (.text v)
  else if strStartsWith t "id:" then
    let v := stripQuotes (jsTrim (t.drop 3))
    if v = "" then .error ("Invalid id selector: " ++ token) else .ok (.id v)
  else .error ("Unknown selector: " ++ token)

/-- A resolved tap target (`src/lib/selector.ts`, type `ResolvedTapTarget`). -/
inductive ResolvedTapTarget where
  | coords (x y : Int)
  | element (el : CanonicalElement) (x y : Int)
deriving DecidableEq, Repr

/-- Rounded half of `t`: `Math.round(t / 2)` for an integer `t`, which is
`⌊(t + 1) / 2⌋` (JS rounds halves toward `+∞`).  `Int` division is
floor division for the positive divisor `2`. -/
def jsRoundHalf (t : Int) : Int :=
  (t + 1) / 2

/-- `elementCenter` (`src/lib/selector.ts`): `Math.round(x + w / 2)` and
`Math.round(y + h / 2)`, expressed over the doubled sums. -/
def elementCenter (el : CanonicalElement) : Int × Int :=
  (jsRoundHalf (2 * el.bounds.x + el.bounds.w),
   jsRoundHalf (2 * el.bounds.y + el.bounds.h))

/-- `formatSelector` (`src/lib/selector.ts`): the rendered form carried by
resolution-miss errors. -/
def formatSelector : ParsedSelector → String
  | .ref r => "@" ++ r
  | .coords x y => "coords:" ++ intToString x ++ "," ++ intToString y
  | .text t => "text:" ++ jsStringify t
  | .id v => "id:" ++ jsStringify v

/-- First id-resolution pass of `resolveTapTarget` (line 75): a single scan
matching either the iOS `id` field or the iOS `label` field. -/
def idTier1 (v : String) (e : CanonicalElement) : Bool :=
  e.selectors.ios.id == some v || e.selectors.ios.label == some v

/-- Second id-resolution pass (line 76): Android `resource_id` equality. -/
def idTier2 (v : String) (e : CanonicalElement) : Bool :=
  e.selectors.android.resource_id == some v

/-- Third id-resolution pass (line 77): Android `content_desc` equality. -/
def idTier3 (v : String) (e : CanonicalElement) : Bool :=
  e.selectors.android.content_desc == some v

/-- The element lookup inside `resolveTapTarget` (`src/lib/selector.ts`
lines 67–79): ref map lookup, exact text find, or the three id passes
chained with `??`. -/
def selectorLookup (snap : UISnapshot) : ParsedSelector → Option CanonicalElement
  | .ref r => List.lookup r snap.refs
  | .text v => snap.elements.find? (fun e => e.name == v)
  | .id v =>
    match snap.elements.find? (idTier1 v) with
    | some el => some el
    | none =>
      match snap.elements.find? (idTier2 v) with
      | some el => some el
      | none => snap.elements.find? (idTier3 v)
  | .coords _ _ => none

/-- `resolveTapTarget` (`src/lib/selector.ts`). -/
def resolveTapTarget (snap : UISnapshot) (sel : ParsedSelector) :
    Except String ResolvedTapTarget :=
  match sel with
  | .coords x y => .ok (.coords x y)
  | s =>
    match selectorLookup snap s with
    | none => .error ("No matching element for selector: " ++ formatSelector s)
    | some el => .ok (.element el (elementCenter el).1 (elementCenter el).2)

/-! ### Claims C2, C6, C10: selector resolution -/

theorem find?_eq_of_first {α : Type} (p : α → Bool) (l : List α) (i : Nat) (x : α)
    (hx : l[i]? = some x) (hpx : p x = true)
    (hbefore : ∀ j y, j < i → l[j]? = some y → p y = false) :
    l.find? p = some x := by
  induction l generalizing i with
  | nil => simp at hx
  | cons a tl ih =>
    match i with
    | 0 =>
      simp only [List.getElem?_cons_zero, Option.some.injEq] at hx
      subst hx
      simp [List.find?, hpx]
    | i + 1 =>
      simp only [List.getElem?_cons_succ] at hx
      have ha : p a = false := hbefore 0 a (by omega) (by simp)
      simp only [List.find?, ha]
      exact ih i hx fun j y hj hy => hbefore (j + 1) y (by omega) (by simpa using hy)

theorem resolveTapTarget_ok_of_nonCoords (snap : UISnapshot) (sel : ParsedSelector)
    (t : ResolvedTapTarget) (h : resolveTapTarget snap sel = .ok t)
    (hnc : ∀ x y, sel ≠ .coords x y) :
    ∃ el, selectorLookup snap sel = some el ∧
      t = .element el (elementCenter el).1 (elementCenter el).2 := by
  cases sel with
  | coords x y => exact absurd rfl (hnc x y)
  | ref r =>
    cases hsel : selectorLookup snap (.ref r) with
    | none =>
      simp only [resolveTapTarget, hsel] at h
      exact Except.noConfusion h
    | some el =>
      simp only [resolveTapTarget, hsel, Except.ok.injEq] at h
      exact ⟨el, rfl, h.symm⟩
  | text v =>
    cases hsel : selectorLookup snap (.text v) with
    | none =>
      simp only [resolveTapTarget, hsel] at h
      exact Except.noConfusion h
    | some el =>
      simp only [resolveTapTarget, hsel, Except.ok.injEq] at h
      exact ⟨el, rfl, h.symm⟩
  | id v =>
    cases hsel : selectorLookup snap (.id v) with
    | none =>
      simp only [resolveTapTarget, hsel] at h
      exact Except.noConfusion h
    | some el =>
      simp only [resolveTapTarget, hsel, Except.ok.injEq] at h
      exact ⟨el, rfl, h.symm⟩

/-- First element of the C2 counterexample snapshot: matches the id token
only through its iOS `label`. -/
def preLabelOnly : PreElement :=
  { role := "button", name := "Label X", value := none,
    bounds := ⟨10, 20, 100, 40⟩,
    states := ⟨true, true, false, false⟩,
    selectors := ⟨⟨none, some "x"⟩, ⟨none, none, none⟩⟩ }

/-- Second element of the C2 counterexample snapshot: its iOS `id` equals the
id token. -/
def preIdX : PreElement :=
  { role := "button", name := "Other", value := none,
    bounds := ⟨0, 0, 10, 10⟩,
    states := ⟨true, true, false, false⟩,
    selectors := ⟨⟨some "x", none⟩, ⟨none, none, none⟩⟩ }

/-- Snapshot used by the C2 counterexample and witness. -/
def snapC2 : UISnapshot :=
  buildSnapshot .ios none none [preLabelOnly, preIdX] "snap-c2" "t0"

/-- Counterexample to claim C2 as stated: in `snapC2` the second element's
iOS `id` equals `"x"`, yet resolution returns the first element, whose only
match is on the iOS `label` field — the source scans `id` and `label`
together in one pass (selector.ts line 75), so an earlier label match beats
a later id match. -/
theorem resolveTapTarget_id_tier_counterexample :
    resolveTapTarget snapC2 (.id "x") =
      .ok (.element (withRef preLabelOnly "e1") 60 40) ∧
    (withRef preLabelOnly "e1").selectors.ios.id ≠ some "x" ∧
    snapC2.elements[1]? = some (withRef preIdX "e2") ∧
    (withRef preIdX "e2").selectors.ios.id = some "x" ∧
    withRef preIdX "e2" ≠ withRef preLabelOnly "e1" := by
  refine ⟨by decide, by decide, by decide, by decide, by decide⟩

/-- Claim C2 (amended): `id` resolution has three passes, each scanning the
whole ordered element list before the next is tried — but the first pass
matches iOS `id` OR iOS `label` in a single combined scan (so an earlier
element matching only on `label` wins over a later element matching on
`id`); the second pass is Android `resource_id`, the third Android
`content_desc`; if all passes fail the result is the resolution-miss
error. -/
theorem resolveTapTarget_id_priority_amended :
    (∀ (snap : UISnapshot) (v : String) (i : Nat) (el : CanonicalElement),
      snap.elements[i]? = some el → idTier1 v el = true →
      (∀ j e', j < i → snap.elements[j]? = some e' → idTier1 v e' = false) →
      resolveTapTarget snap (.id v) =
        .ok (.element el (elementCenter el).1 (elementCenter el).2)) ∧
    (∀ (snap : UISnapshot) (v : String),
      (∀ e ∈ snap.elements, idTier1 v e = false) →
      ∀ (i : Nat) (el : CanonicalElement),
        snap.elements[i]? = some el → idTier2 v el = true →
        (∀ j e', j < i → snap.elements[j]? = some e' → idTier2 v e' = false) →
        resolveTapTarget snap (.id v) =
          .ok (.element el (elementCenter el).1 (elementCenter el).2)) ∧
    (∀ (snap : UISnapshot) (v : String),
      (∀ e ∈ snap.elements, idTier1 v e = false) →
      (∀ e ∈ snap.elements, idTier2 v e = false) →
      ∀ (i : Nat) (el : CanonicalElement),
        snap.elements[i]? = some el → idTier3 v el = true →
        (∀ j e', j < i → snap.elements[j]? = some e' → idTier3 v e' = false) →
        resolveTapTarget snap (.id v) =
          .ok (.element el (elementCenter el).1 (elementCenter el).2)) ∧
    (∀ (snap : UISnapshot) (v : String),
      (∀ e ∈ snap.elements, idTier1 v e = false) →
      (∀ e ∈ snap.elements, idTier2 v e = false) →
      (∀ e ∈ snap.elements, idTier3 v e = false) →
      resolveTapTarget snap (.id v) =
        .error ("No matching element for selector: " ++ formatSelector (.id v))) := by
  have hnone : ∀ (p : CanonicalElement → Bool) (l : List CanonicalElement),
      (∀ e ∈ l, p e = false) → l.find? p = none := by
    intro p l h
    exact List.find?_eq_none.mpr fun x hx => by rw [h x hx]; simp
  refine ⟨?_, ?_, ?_, ?_⟩
  · intro snap v i el hel hp hbefore
    have hf : snap.elements.find? (idTier1 v) = some el :=
      find?_eq_of_first _ _ i el hel hp hbefore
    simp [resolveTapTarget, selectorLookup, hf]
  · intro snap v h1 i el hel hp hbefore
    have hf1 : snap.elements.find? (idTier1 v) = none := hnone _ _ h1
    have hf : snap.elements.find? (idTier2 v) = some el :=
      find?_eq_of_first _ _ i el hel hp hbefore
    simp [resolveTapTarget, selectorLookup, hf1, hf]
  · intro snap v h1 h2 i el hel hp hbefore
    have hf1 : snap.elements.find? (idTier1 v) = none := hnone _ _ h1
    have hf2 : snap.elements.find? (idTier2 v) = none := hnone _ _ h2
    have hf : snap.elements.find? (idTier3 v) = some el :=
      find?_eq_of_first _ _ i el hel hp hbefore
    simp [resolveTapTarget, selectorLookup, hf1, hf2, hf]
  · intro snap v h1 h2 h3
    have hf1 : snap.elements.find? (idTier1 v) = none := hnone _ _ h1
    have hf2 : snap.elements.find? (idTier2 v) = none := hnone _ _ h2
    have hf3 : snap.elements.find? (idTier3 v) = none := hnone _ _ h3
    simp [resolveTapTarget, selectorLookup, hf1, hf2, hf3]

/-- Witness for the amended C2 theorem at a concrete snapshot. -/
theorem resolveTapTarget_id_priority_amended_witness :
    resolveTapTarget snapC2 (.id "x") =
      .ok (.element (withRef preLabelOnly "e1")
        (elementCenter (withRef preLabelOnly "e1")).1
        (elementCenter (withRef preLabelOnly "e1")).2) :=
  resolveTapTarget_id_priority_amended.1 snapC2 "x" 0 (withRef preLabelOnly "e1")
    (by decide) (by decide) (fun j e' hj _ => absurd hj (by omega))

/-- Snapshot used by the C6 round trip: one button at bounds (10,20,100,40). -/
def snapC6 : UISnapshot :=
  buildSnapshot .ios (some "sim") none [preButton] "snap-c6" "t0"

/-- Claim C6 (confirmed): every successful non-coordinate resolution produces
the found element together with its bounds center, each coordinate within
half a unit of `x + w/2` resp. `y + h/2` (i.e. rounded to a nearest
integer); and the concrete round trip parses `"@e1"` and resolves it against
a snapshot whose first element has bounds (10,20,100,40) to the element
target (60, 40). -/
theorem resolveTapTarget_center_rounding :
    (∀ (snap : UISnapshot) (sel : ParsedSelector) (t : ResolvedTapTarget),
      resolveTapTarget snap sel = .ok t →
      (∀ x y, sel ≠ .coords x y) →
      ∃ el, t = .element el (elementCenter el).1 (elementCenter el).2 ∧
        (2 * (elementCenter el).1 - (2 * el.bounds.x + el.bounds.w)).natAbs ≤ 1 ∧
        (2 * (elementCenter el).2 - (2 * el.bounds.y + el.bounds.h)).natAbs ≤ 1) ∧
    parseSelectorToken "@e1" = .ok (.ref "e1") ∧
    resolveTapTarget snapC6 (.ref "e1") =
      .ok (.element (withRef preButton "e1") 60 40) := by
  refine ⟨?_, by decide, by decide⟩
  intro snap sel t h hnc
  obtain ⟨el, _, rfl⟩ := resolveTapTarget_ok_of_nonCoords snap sel t h hnc
  refine ⟨el, rfl, ?_, ?_⟩
  · unfold elementCenter jsRoundHalf
    omega
  · unfold elementCenter jsRoundHalf
    omega

/-- Witness for the C6 theorem at the concrete round-trip snapshot. -/
theorem resolveTapTarget_center_rounding_witness :
    ∃ el, (ResolvedTapTarget.element (withRef preButton "e1") 60 40) =
        .element el (elementCenter el).1 (elementCenter el).2 ∧
      (2 * (elementCenter el).1 - (2 * el.bounds.x + el.bounds.w)).natAbs ≤ 1 ∧
      (2 * (elementCenter el).2 - (2 * el.bounds.y + el.bounds.h)).natAbs ≤ 1 :=
  resolveTapTarget_center_rounding.1 snapC6 (.ref "e1")
    (.element (withRef preButton "e1") 60 40) (by decide)
    (fun x y h => ParsedSelector.noConfusion h)

theorem refsFrom_lookup_e01 (els : List PreElement) (i : Nat) :
    List.lookup "e01" (refsFrom i els) = none := by
  induction els generalizing i with
  | nil => rfl
  | cons e es ih =>
    have hne : ("e01" == refName i) = false :=
      beq_eq_false_iff_ne.mpr fun h => refName_ne_e01 i h.symm
    simp only [refsFrom, List.lookup, hne]
    exact ih (i + 1)

/-- Claim C10 (confirmed): `"@e01"` parses as a syntactically valid ref
selector (the grammar `^e\d+$` admits leading zeros), but ref assignment
only ever produces refs without leading zeros, so against any snapshot built
by the snapshot builder the token fails as a resolution miss — never as a
syntax error. -/
theorem refToken_leading_zeros_resolution_miss :
    parseSelectorToken "@e01" = .ok (.ref "e01") ∧
    ∀ (platform : Platform) (dev app : Option String) (els : List PreElement)
      (sid tat : String),
      resolveTapTarget (buildSnapshot platform dev app els sid tat) (.ref "e01") =
        .error ("No matching element for selector: @e01") := by
  refine ⟨by decide, ?_⟩
  intro platform dev app els sid tat
  have hrefs : (buildSnapshot platform dev app els sid tat).refs = refsFrom 0 els := by
    simp [buildSnapshot, assignRefs_closed]
  have hlook : selectorLookup (buildSnapshot platform dev app els sid tat)
      (.ref "e01") = none := by
    simp only [selectorLookup, hrefs]
    exact refsFrom_lookup_e01 els 0
  simp only [resolveTapTarget, hlook]
  decide

/-! ### Claim C5: iOS candidate deduplication (`parseIOSAxeDescribeUI`) -/

/-- The interactive role set (`src/lib/uiSnapshot.ts` line 47). -/
def INTERACTABLE_ROLES : List String :=
  ["button", "textbox", "link", "checkbox", "switch"]

/-- `nonZeroBounds` (`src/lib/uiSnapshot.ts`): non-degenerate bounds. -/
def nonZeroBounds (b : Bounds) : Bool :=
  b.w > 0 && b.h > 0

/-- The deduplication key of a candidate (`src/lib/uiSnapshot.ts` line 219):
the template string `role|name|id ?? ""|x,y,w,h`. -/
def dedupKey (e : PreElement) : String :=
  e.role ++ "|" ++ e.name ++ "|" ++ (e.selectors.ios.id.getD "") ++ "|" ++
    intToString e.bounds.x ++ "," ++ intToString e.bounds.y ++ "," ++
    intToString e.bounds.w ++ "," ++ intToString e.bounds.h

/-- The dedup filter with its `seen` set (`src/lib/uiSnapshot.ts` lines
217–223): keep a candidate iff its key has not been seen, accumulating seen
keys left to right. -/
def dedupeGo : List PreElement → List String → List PreElement
  | [], _ => []
  | e :: es, seen =>
    if seen.contains (dedupKey e) then dedupeGo es seen
    else e :: dedupeGo es (dedupKey e :: seen)

/-- Deduplication of the iOS candidate list. -/
def dedupeIOS (cs : List PreElement) : List PreElement :=
  dedupeGo cs []

/-- The post-candidate stage of `parseIOSAxeDescribeUI` (lines 216–227):
dedupe, then optionally filter to interactable elements with non-degenerate
bounds. -/
def parseIOSPostProcess (interactiveOnly : Bool) (candidates : List PreElement) :
    List PreElement :=
  let deduped := dedupeIOS candidates
  if !interactiveOnly then deduped
  else deduped.filter fun e => INTERACTABLE_ROLES.contains e.role && nonZeroBounds e.bounds

theorem dedupeGo_sublist (cs : List PreElement) (seen : List String) :
    List.Sublist (dedupeGo cs seen) cs := by
  induction cs generalizing seen with
  | nil => simp [dedupeGo]
  | cons e es ih =>
    simp only [dedupeGo]
    by_cases h : seen.contains (dedupKey e)
    · simp only [h, if_true]
      exact (ih seen).cons e
    · simp only [h, if_false]
      exact (ih (dedupKey e :: seen)).cons₂ e

theorem dedupeGo_not_in_seen (cs : List PreElement) (seen : List String) :
    ∀ d ∈ dedupeGo cs seen, seen.contains (dedupKey d) = false := by
  induction cs generalizing seen with
  | nil => simp [dedupeGo]
  | cons e es ih =>
    intro d hd
    simp only [dedupeGo] at hd
    by_cases h : seen.contains (dedupKey e)
    · simp only [h, if_true] at hd
      exact ih seen d hd
    · simp only [h, if_false] at hd
      rcases List.mem_cons.mp hd with rfl | hd2
      · simpa using h
      · have h2 := ih (dedupKey e :: seen) d hd2
        simp only [List.contains_cons, Bool.or_eq_false_iff] at h2
        exact h2.2

theorem dedupeGo_pairwise (cs : List PreElement) (seen : List String) :
    (dedupeGo cs seen).Pairwise (fun a b => dedupKey a ≠ dedupKey b) := by
  induction cs generalizing seen with
  | nil => simp [dedupeGo]
  | cons e es ih =>
    simp only [dedupeGo]
    by_cases h : seen.contains (dedupKey e)
    · simp only [h, if_true]
      exact ih seen
    · simp only [h, if_false]
      refine List.Pairwise.cons ?_ (ih (dedupKey e :: seen))
      intro b hb
      have h2 := dedupeGo_not_in_seen es (dedupKey e :: seen) b hb
      simp only [List.contains_cons, Bool.or_eq_false_iff] at h2
      intro hk
      have := h2.1
      simp only [beq_eq_false_iff_ne, ne_eq] at this
      exact this hk.symm

theorem dedupeGo_covers (cs : List PreElement) (seen : List String) :
    ∀ c ∈ cs, seen.contains (dedupKey c) = false →
      ∃ d ∈ dedupeGo cs seen, dedupKey d = dedupKey c := by
  induction cs generalizing seen with
  | nil => simp
  | cons e es ih =>
    intro c hc hseen
    simp only [dedupeGo]
    by_cases h : seen.contains (dedupKey e)
    · simp only [h, if_true]
      rcases List.mem_cons.mp hc with rfl | hc2
      · rw [hseen] at h
        cases h
      · exact ih seen c hc2 hseen
    · simp only [h, if_false]
      rcases List.mem_cons.mp hc with rfl | hc2
      · exact ⟨c, by simp, rfl⟩
      · by_cases hk : dedupKey c = dedupKey e
        · exact ⟨e, by simp, hk.symm⟩
        · have hseen2 : (dedupKey e :: seen).contains (dedupKey c) = false := by
            simp only [List.contains_cons, Bool.or_eq_false_iff]
            exact ⟨beq_eq_false_iff_ne.mpr hk, hseen⟩
          obtain ⟨d, hd, hkey⟩ := ih (dedupKey e :: seen) c hc2 hseen2
          exact ⟨d, by simp [hd], hkey⟩

theorem dedupeGo_keeps_first (cs : List PreElement) (seen : List String)
    (i : Nat) (c : PreElement) (hc : cs[i]? = some c)
    (hseen : seen.contains (dedupKey c) = false)
    (hfirst : ∀ j y, j < i → cs[j]? = some y → dedupKey y ≠ dedupKey c) :
    c ∈ dedupeGo cs seen := by
  induction cs generalizing seen i with
  | nil => simp at hc
  | cons e es ih =>
    simp only [dedupeGo]
    match i with
    | 0 =>
      simp only [List.getElem?_cons_zero, Option.some.injEq] at hc
      subst hc
      simp only [hseen, if_false]
      simp
    | i + 1 =>
      simp only [List.getElem?_cons_succ] at hc
      have hne : dedupKey e ≠ dedupKey c := hfirst 0 e (by omega) (by simp)
      by_cases h : seen.contains (dedupKey e)
      · simp only [h, if_true]
        exact ih seen i hc hseen fun j y hj hy => hfirst (j + 1) y (by omega) (by simpa using hy)
      · simp only [h, if_false]
        refine List.mem_cons_of_mem e ?_
        have hseen2 : (dedupKey e :: seen).contains (dedupKey c) = false := by
          simp only [List.contains_cons, Bool.or_eq_false_iff]
          exact ⟨beq_eq_false_iff_ne.mpr fun hk => hne hk.symm, hseen⟩
        exact ih (dedupKey e :: seen) i hc hseen2
          fun j y hj hy => hfirst (j + 1) y (by omega) (by simpa using hy)

/-- Candidate whose role contains the separator character. -/
def preRolePipe : PreElement :=
  { role := "a|b", name := "c", value := none,
    bounds := ⟨0, 0, 0, 0⟩,
    states := ⟨true, true, false, false⟩,
    selectors := ⟨⟨none, none⟩, ⟨none, none, none⟩⟩ }

/-- Candidate with a different role and name but the same joined dedup key. -/
def preNamePipe : PreElement :=
  { role := "a", name := "b|c", value := none,
    bounds := ⟨0, 0, 0, 0⟩,
    states := ⟨true, true, false, false⟩,
    selectors := ⟨⟨none, none⟩, ⟨none, none, none⟩⟩ }

/-- Counterexample to claim C5 as stated: the dedup key is the `|`-joined
string `role|name|id|x,y,w,h`, so two candidates whose (role, name) pairs
differ — `("a|b", "c")` versus `("a", "b|c")` — share the key
`"a|b|c||0,0,0,0"` and are collapsed to one, refuting "merged only if all
four components are equal". -/
theorem iosDedup_collision_counterexample :
    dedupeIOS [preRolePipe, preNamePipe] = [preRolePipe] ∧
    preRolePipe.role ≠ preNamePipe.role ∧
    preRolePipe.name ≠ preNamePipe.name ∧
    dedupKey preRolePipe = dedupKey preNamePipe := by
  refine ⟨by decide, by decide, by decide, by decide⟩

/-- Claim C5 (amended): the dedup stage collapses candidates sharing the
same joined key `role|name|(id ?? "")|x,y,w,h`: the output is an
order-preserving sublist of the candidates, no two output candidates share a
key, every candidate's key is represented, and the retained representative
is the first occurrence of its key.  Tuple-equal candidates (same role,
name, iOS id and bounds) always share a key and hence always collapse, but
distinct tuples can also collapse when the joined strings coincide. -/
theorem iosDedup_key_characterization :
    (∀ cs : List PreElement, List.Sublist (dedupeIOS cs) cs) ∧
    (∀ cs : List PreElement,
      (dedupeIOS cs).Pairwise (fun a b => dedupKey a ≠ dedupKey b)) ∧
    (∀ (cs : List PreElement) (c : PreElement), c ∈ cs →
      ∃ d ∈ dedupeIOS cs, dedupKey d = dedupKey c) ∧
    (∀ (cs : List PreElement) (i : Nat) (c : PreElement), cs[i]? = some c →
      (∀ j y, j < i → cs[j]? = some y → dedupKey y ≠ dedupKey c) →
      c ∈ dedupeIOS cs) ∧
    (∀ a b : PreElement, a.role = b.role → a.name = b.name →
      a.selectors.ios.id = b.selectors.ios.id → a.bounds = b.bounds →
      dedupKey a = dedupKey b) := by
  refine ⟨fun cs => dedupeGo_sublist cs [], fun cs => dedupeGo_pairwise cs [],
    fun cs c hc => dedupeGo_covers cs [] c hc (by simp),
    fun cs i c hc hfirst => dedupeGo_keeps_first cs [] i c hc (by simp) hfirst,
    ?_⟩
  intro a b h1 h2 h3 h4
  unfold dedupKey
  rw [h1, h2, h3, h4]

/-- Witness for the amended C5 theorem: the colliding pair collapses, with
the first occurrence retained. -/
theorem iosDedup_key_characterization_witness :
    ∃ d ∈ dedupeIOS [preRolePipe, preNamePipe], dedupKey d = dedupKey preNamePipe :=
  iosDedup_key_characterization.2.2.1 [preRolePipe, preNamePipe] preNamePipe (by decide)

/-! ### Android parser (`parseAndroidUiautomatorXml`, `parseAndroidBounds`) -/

/-- Read one maximal run of decimal digits (the anchored, greedy `\d+` of
the bounds regex): returns its value and the remaining characters, or
`none` when no digit is present. -/
def readNat (cs : List Char) : Option (Nat × List Char) :=
  let ds := cs.takeWhile Char.isDigit
  if ds.isEmpty then none else some (charsToNat ds, cs.dropWhile Char.isDigit)

/-- The anchored match `^\[(\d+),(\d+)\]\[(\d+),(\d+)\]$` of
`parseAndroidBounds`.  The regex is deterministic (a digit run can only end
at the following punctuation character), so this LL(1) parse is exact. -/
def parseBoundsChars (cs : List Char) : Option (Nat × Nat × Nat × Nat) :=
  match cs with
  | '[' :: cs1 =>
    match readNat cs1 with
    | some (l, ',' :: cs2) =>
      match readNat cs2 with
      | some (t, ']' :: '[' :: cs3) =>
        match readNat cs3 with
        | some (r, ',' :: cs4) =>
          match readNat cs4 with
          | some (b, [']']) => some (l, t, r, b)
          | _ => none
        | _ => none
      | _ => none
    | _ => none
  | _ => none

/-- `parseAndroidBounds` (`src/lib/uiSnapshot.ts` lines 229–237): a
well-formed `[l,t][r,b]` literal yields `{l, t, max(0, r−l), max(0, b−t)}`;
anything else yields the zero rectangle. -/
def parseAndroidBounds (s : String) : Bounds :=
  match parseBoundsChars s.toList with
  | none => ⟨0, 0, 0, 0⟩
  | some (l, t, r, b) => ⟨(l : Int), (t : Int), max 0 ((r : Int) - l), max 0 ((b : Int) - t)⟩

/-- Regex `\w`: ASCII letters, digits and underscore. -/
def isWordChar (c : Char) : Bool :=
  c.isAlpha || c.isDigit || c = '_'

/-- Character class `[\w:-]` of the attribute-name regex. -/
def isNameChar (c : Char) : Bool :=
  isWordChar c || c = ':' || c = '-'

/-- Take characters up to (and excluding) the first occurrence of `stop`;
`none` when `stop` never occurs. -/
def takeUntilChar (stop : Char) : List Char → Option (List Char × List Char)
  | [] => none
  | c :: cs =>
    if c = stop then some ([], cs)
    else (takeUntilChar stop cs).map fun p => (c :: p.1, p.2)

/-- One attempt of the attribute regex `(\w[\w:-]*)="([^"]*)"` at the start
of `cs`.  Neither character class contains `=` or `"`, so the greedy
sub-matches never backtrack and this direct parse is exact. -/
def matchAttr (cs : List Char) : Option (String × String × List Char) :=
  match cs with
  | [] => none
  | c :: rest =>
    if isWordChar c then
      match rest.dropWhile isNameChar with
      | '=' :: '"' :: r2 =>
        match takeUntilChar '"' r2 with
        | some (v, rem) => some (String.mk (c :: rest.takeWhile isNameChar), String.mk v, rem)
        | none => none
      | _ => none
    else none

/-- Global scan of the attribute regex over the attribute text: try a match
at each position, resuming after the end of every match (non-overlapping,
left to right, exactly as a sticky `exec` loop).  Every step consumes at
least one character, so `fuel := length` is exact. -/
def attrScanGo : Nat → List Char → List (String × String)
  | 0, _ => []
  | _ + 1, [] => []
  | fuel + 1, c :: rest =>
    match matchAttr (c :: rest) with
    | some (k, v, rem) => (k, v) :: attrScanGo fuel rem
    | none => attrScanGo fuel rest

/-- `attrMap` (`src/lib/uiSnapshot.ts` lines 247–255): fold the scanned
pairs into a record, later duplicates overwriting earlier ones. -/
def attrMap (attrText : String) : List (String × String) :=
  (attrScanGo attrText.toList.length attrText.toList).foldl
    (fun m kv => recordSet m kv.1 kv.2) []

/-- JS property access `attrs[k]` on the attribute record. -/
def attrGet (m : List (String × String)) (k : String) : Option String :=
  List.lookup k m

/-- Word-boundary test after the literal `node` (`\b`): the match continues
only when the next character is not a word character. -/
def nodeBoundary : List Char → Bool
  | [] => true
  | c :: _ => !isWordChar c

/-- Global scan of `/<node\b([^>]*)\/?>/g`: find each `<node` occurrence
with a word boundary, capture everything up to the closing `>` (the
optional `\/?` is subsumed by the greedy `[^>]*`), and resume after it.
When no `>` remains the scan stops — no later occurrence can complete a
match either. -/
def nodeScanGo : Nat → List Char → List String
  | 0, _ => []
  | _ + 1, [] => []
  | fuel + 1, c :: rest =>
    match c, rest with
    | '<', 'n' :: 'o' :: 'd' :: 'e' :: r2 =>
      if nodeBoundary r2 then
        match takeUntilChar '>' r2 with
        | some (attrs, rem) => String.mk attrs :: nodeScanGo fuel rem
        | none => []
      else nodeScanGo fuel rest
    | _, _ => nodeScanGo fuel rest

/-- JS `a || b` on strings: first operand unless it is empty (falsy). -/
def jsOr (a b : String) : String :=
  if a = "" then b else a

/-- JS `s || null`: `none` for the empty string. -/
def optStr (s : String) : Option String :=
  if s = "" then none else some s

/-- `mapAndroidRole` (`src/lib/uiSnapshot.ts` lines 239–245). -/
def mapAndroidRole (className : String) : String :=
  if className = "android.widget.Button" then "button"
  else if className = "android.widget.EditText" then "textbox"
  else if className = "android.widget.CheckBox" then "checkbox"
  else if className = "android.widget.Switch" then "switch"
  else "unknown"

/-- JS `arr.pop()` after a `split`: the last segment (split lists are never
empty, so the source's `?? fallback` can never fire; it is kept as `getD`). -/
def lastSegmentD (s : String) (sep : Char) (fallback : String) : String :=
  (((splitOnChar sep s.toList).map String.mk).getLast?).getD fallback

/-- The raw `bounds` attribute of a node's attribute text. -/
def androidBoundsRaw (attrText : String) : String :=
  (attrGet (attrMap attrText) "bounds").getD ""

/-- Construction of one canonical element from a `<node>` attribute text
(`src/lib/uiSnapshot.ts` lines 262–301). -/
def mkAndroidElement (attrText : String) : PreElement :=
  let attrs := attrMap attrText
  let className := (attrGet attrs "class").getD ""
  let text := ((attrGet attrs "text").map jsTrim).getD ""
  let contentDesc := ((attrGet attrs "content-desc").map jsTrim).getD ""
  let resourceId := ((attrGet attrs "resource-id").map jsTrim).getD ""
  let name :=
    jsOr text (jsOr contentDesc (jsOr
      (if resourceId ≠ "" then lastSegmentD resourceId '/' resourceId else "")
      (jsOr (lastSegmentD className '.' "") "")))
  { role := mapAndroidRole className
    name := name
    value := none
    bounds := parseAndroidBounds (androidBoundsRaw attrText)
    states :=
      { enabled := !(attrGet attrs "enabled" == some "false")
        visible := !(attrGet attrs "visible-to-user" == some "false")
        focused := attrGet attrs "focused" == some "true"
        checked := attrGet attrs "checked" == some "true" }
    selectors :=
      ⟨⟨none, none⟩, ⟨optStr resourceId, optStr contentDesc, optStr className⟩⟩ }

/-- Interactability of a node (`clickable || focusable || interactive role`). -/
def androidNodeInteractable (attrText : String) : Bool :=
  let attrs := attrMap attrText
  (attrGet attrs "clickable" == some "true") ||
    (attrGet attrs "focusable" == some "true") ||
    INTERACTABLE_ROLES.contains (mapAndroidRole ((attrGet attrs "class").getD ""))

/-- Per-node step of the Android parser loop: the `continue` filters under
`interactiveOnly` (lines 303–306), otherwise the element is kept. -/
def nodeElement (interactiveOnly : Bool) (attrText : String) : Option PreElement :=
  if interactiveOnly &&
      (!androidNodeInteractable attrText ||
        !nonZeroBounds (mkAndroidElement attrText).bounds) then
    none
  else some (mkAndroidElement attrText)

/-- `parseAndroidUiautomatorXml` (`src/lib/uiSnapshot.ts` lines 257–312). -/
def parseAndroidUiautomatorXml (xml : String) (interactiveOnly : Bool) :
    List PreElement :=
  (nodeScanGo xml.toList.length xml.toList).filterMap (nodeElement interactiveOnly)

/-! ### Claims C7 and C9: Android bounds parsing -/

theorem takeWhile_digits_append (A : List Char) (c : Char) (r : List Char)
    (hA : ∀ a ∈ A, a.isDigit = true) (hc : c.isDigit = false) :
    (A ++ c :: r).takeWhile Char.isDigit = A ∧
    (A ++ c :: r).dropWhile Char.isDigit = c :: r := by
  induction A with
  | nil => simp [List.takeWhile_cons, List.dropWhile_cons, hc]
  | cons a A ih =>
    have ha : a.isDigit = true := hA a (by simp)
    have hA2 : ∀ x ∈ A, x.isDigit = true := fun x hx => hA x (by simp [hx])
    obtain ⟨h1, h2⟩ := ih hA2
    simp [List.takeWhile_cons, List.dropWhile_cons, ha, h1, h2]

theorem natToString_chars_digits (n : Nat) :
    ∀ ch ∈ (natToString n).toList, ch.isDigit = true := by
  by_cases h : n = 0
  · subst h
    decide
  · intro ch hch
    have hl : (natToString n).toList = (Nat.digits 10 n).reverse.map digitChar := by
      simp [natToString, h, natDigitsLE_eq_digits]
    rw [hl] at hch
    simp only [List.mem_map, List.mem_reverse] at hch
    obtain ⟨d, hd, rfl⟩ := hch
    exact digitChar_isDigit (Nat.digits_lt_base (by omega) hd)

theorem natToString_chars_ne_nil (n : Nat) : (natToString n).toList ≠ [] := by
  by_cases h : n = 0
  · subst h
    decide
  · have hl : (natToString n).toList = (Nat.digits 10 n).reverse.map digitChar := by
      simp [natToString, h, natDigitsLE_eq_digits]
    rw [hl]
    simp only [ne_eq, List.map_eq_nil_iff, List.reverse_eq_nil_iff]
    exact Nat.digits_ne_nil_iff_ne_zero.mpr h

theorem readNat_render (n : Nat) (c : Char) (r : List Char) (hc : c.isDigit = false) :
    readNat ((natToString n).toList ++ c :: r) = some (n, c :: r) := by
  obtain ⟨h1, h2⟩ :=
    takeWhile_digits_append (natToString n).toList c r (natToString_chars_digits n) hc
  rw [readNat]
  simp only [h1, h2]
  rw [if_neg (by simpa [List.isEmpty_iff] using natToString_chars_ne_nil n)]
  rw [charsToNat_natToString]

theorem parseBoundsChars_render (l t r b : Nat) :
    parseBoundsChars ('[' :: (natToString l).toList ++
      ',' :: (natToString t).toList ++
      ']' :: '[' :: (natToString r).toList ++
      ',' :: (natToString b).toList ++ [']']) = some (l, t, r, b) := by
  have h1 := readNat_render l ','
    ((natToString t).toList ++ ']' :: '[' :: (natToString r).toList ++
      ',' :: (natToString b).toList ++ [']']) (by decide)
  have h2 := readNat_render t ']'
    ('[' :: (natToString r).toList ++ ',' :: (natToString b).toList ++ [']']) (by decide)
  have h3 := readNat_render r ','
    ((natToString b).toList ++ [']']) (by decide)
  have h4 := readNat_render b ']' [] (by decide)
  simp only [List.append_assoc, List.cons_append, List.nil_append] at h1 h2 h3 h4
  simp only [parseBoundsChars, List.append_assoc, List.cons_append, List.nil_append,
    h1, h2, h3, h4]

theorem string_bounds_literal_toList (s1 s2 s3 s4 : String) :
    ("[" ++ s1 ++ "," ++ s2 ++ "][" ++ s3 ++ "," ++ s4 ++ "]").toList =
      '[' :: s1.toList ++ ',' :: s2.toList ++ ']' :: '[' :: s3.toList ++
        ',' :: s4.toList ++ [']'] := by
  have hdata : ∀ u v : String, (u ++ v).toList = u.toList ++ v.toList :=
    fun u v => String.data_append u v
  have h1 : "[".toList = ['['] := rfl
  have h2 : ",".toList = [','] := rfl
  have h3 : "][".toList = [']', '['] := rfl
  have h4 : "]".toList = [']'] := rfl
  simp only [hdata, h1, h2, h3, h4]
  simp [List.append_assoc]

/-- Counterexample to claim C7 as stated: the format admits reversed
rectangles, and on `"[2,0][0,0]"` (well-formed per the regex) the computed
width is `max(0, 0−2) = 0`, not the claimed `r − l = −2`. -/
theorem parseAndroidBounds_reversed_counterexample :
    parseAndroidBounds "[2,0][0,0]" = ⟨2, 0, 0, 0⟩ ∧
    parseAndroidBounds "[2,0][0,0]" ≠ ⟨2, 0, 0 - 2, 0 - 0⟩ := by
  refine ⟨by decide, by decide⟩

/-- Claim C7 (amended): the Android bounds parser is total and never throws:
a well-formed literal `[l,t][r,b]` yields `{x: l, y: t, w: max(0, r−l),
h: max(0, b−t)}` — the widths are clamped at zero, which coincides with
`r−l` and `b−t` whenever the rectangle is not reversed — and any string not
matching the format yields the zero rectangle. -/
theorem parseAndroidBounds_total_clamped :
    (∀ l t r b : Nat,
      parseAndroidBounds ("[" ++ natToString l ++ "," ++ natToString t ++ "][" ++
          natToString r ++ "," ++ natToString b ++ "]") =
        ⟨(l : Int), (t : Int), max 0 ((r : Int) - l), max 0 ((b : Int) - t)⟩) ∧
    parseAndroidBounds "[0,0][100,50]" = ⟨0, 0, 100, 50⟩ ∧
    (∀ s : String, parseBoundsChars s.toList = none →
      parseAndroidBounds s = ⟨0, 0, 0, 0⟩) ∧
    parseAndroidBounds "oops" = ⟨0, 0, 0, 0⟩ := by
  refine ⟨?_, by decide, ?_, by decide⟩
  · intro l t r b
    rw [parseAndroidBounds, string_bounds_literal_toList, parseBoundsChars_render]
  · intro s h
    rw [parseAndroidBounds, h]

/-- Witness for the amended C7 theorem at concrete values: a reversed
rectangle exercising the clamp, and a non-matching string exercising the
degenerate branch. -/
theorem parseAndroidBounds_total_clamped_witness :
    (parseAndroidBounds ("[" ++ natToString 7 ++ "," ++ natToString 9 ++ "][" ++
        natToString 3 ++ "," ++ natToString 29 ++ "]") =
      ⟨(7 : Int), (9 : Int), max 0 ((3 : Int) - 7), max 0 ((29 : Int) - 9)⟩) ∧
    parseAndroidBounds "zz" = ⟨0, 0, 0, 0⟩ :=
  ⟨parseAndroidBounds_total_clamped.1 7 9 3 29,
    parseAndroidBounds_total_clamped.2.2.1 "zz" (by decide)⟩

theorem parseAndroidBounds_w_nonneg (s : String) :
    0 ≤ (parseAndroidBounds s).w ∧ 0 ≤ (parseAndroidBounds s).h := by
  rw [parseAndroidBounds]
  cases parseBoundsChars s.toList with
  | none => exact ⟨le_refl 0, le_refl 0⟩
  | some q =>
    obtain ⟨l, t, r, b⟩ := q
    exact ⟨le_max_left 0 _, le_max_left 0 _⟩

/-- Claim C9 (confirmed): every element produced by the Android parser has
non-negative bounds width and height; in particular a reversed literal
(`r < l` or `b < t`) is clamped to width resp. height `0`. -/
theorem androidParser_bounds_nonneg :
    (∀ (xml : String) (io : Bool), ∀ e ∈ parseAndroidUiautomatorXml xml io,
      0 ≤ e.bounds.w ∧ 0 ≤ e.bounds.h) ∧
    (∀ s : String, 0 ≤ (parseAndroidBounds s).w ∧ 0 ≤ (parseAndroidBounds s).h) ∧
    (∀ (s : String) (l t r b : Nat), parseBoundsChars s.toList = some (l, t, r, b) →
      (r : Int) < l → (parseAndroidBounds s).w = 0) ∧
    (∀ (s : String) (l t r b : Nat), parseBoundsChars s.toList = some (l, t, r, b) →
      (b : Int) < t → (parseAndroidBounds s).h = 0) := by
  refine ⟨?_, parseAndroidBounds_w_nonneg, ?_, ?_⟩
  · intro xml io e he
    rw [parseAndroidUiautomatorXml] at he
    obtain ⟨a, _, ha⟩ := List.mem_filterMap.mp he
    have hb : e.bounds = parseAndroidBounds (androidBoundsRaw a) := by
      rw [nodeElement] at ha
      split at ha
      · cases ha
      · cases ha
        rfl
    rw [hb]
    exact parseAndroidBounds_w_nonneg _
  · intro s l t r b h hrl
    rw [parseAndroidBounds, h]
    simp only [Bounds.mk.injEq]
    omega
  · intro s l t r b h hbt
    rw [parseAndroidBounds, h]
    simp only [Bounds.mk.injEq]
    omega

/-- Attribute text of the C9 witness node (a reversed rectangle). -/
def c9attrText : String := " class=\"android.widget.Button\" bounds=\"[5,5][3,3]\"/"

/-- The C9 witness dump: one node with reversed bounds. -/
def c9xml : String := "<node" ++ c9attrText ++ ">"

/-- Witness for C9 on a concrete dump containing a reversed rectangle. -/
theorem androidParser_bounds_nonneg_witness :
    0 ≤ (mkAndroidElement c9attrText).bounds.w ∧
    0 ≤ (mkAndroidElement c9attrText).bounds.h :=
  androidParser_bounds_nonneg.1 c9xml false (mkAndroidElement c9attrText) (by decide)

/-! ### Run-artifact retention (`src/lib/gc.ts`) -/

/-- A run directory entry (`src/lib/gc.ts`, type `RunInfo`).  `startedAt` is
a `Date`; only its millisecond value is ever used (`getTime()`), so it is
modelled directly as `startedAtMs`.  The `startedAtSource` provenance tag is
never read by the planner or executor and is omitted. -/
structure RunInfo where
  dir : String
  startedAtMs : Int
  mtimeMs : Int
  ok : Option Bool
  sizeBytes : Nat
deriving DecidableEq, Repr

/-- The GC policy triple passed to `planGC`. -/
structure GCPolicy where
  keepLast : Nat
  keepFailureDays : Int
  maxBytes : Int
deriving DecidableEq, Repr

/-- A GC plan (`src/lib/gc.ts`, type `GCPlan`). -/
structure GCPlan where
  keepLast : Nat
  keepFailureDays : Int
  maxBytes : Int
  totalRuns : Nat
  totalBytes : Int
  keep : List RunInfo
  delete : List RunInfo
  afterBytes : Int
deriving DecidableEq, Repr

/-- Total size in bytes of a run list. -/
def sumSizes (runs : List RunInfo) : Int :=
  (runs.map fun r => (r.sizeBytes : Int)).sum

/-- `ok === false || ok === null` (failure-or-unknown). -/
def isFailure (r : RunInfo) : Bool :=
  r.ok == some false || r.ok == none

/-- JS `Set.add` on a set of strings modelled as a duplicate-free list. -/
def setAdd (s : List String) (d : String) : List String :=
  if s.contains d then s else s ++ [d]

/-- The `keepSet` built by `planGC` (lines 95–106): dirs of the `keepLast`
newest runs, plus dirs of failure-or-unknown runs young enough under
`keepFailureDays`. -/
def keepSetOf (runs : List RunInfo) (pol : GCPolicy) (nowMs : Int) : List String :=
  let ks1 := (runs.take pol.keepLast).foldl (fun acc r => setAdd acc r.dir) []
  runs.foldl
    (fun acc r =>
      if isFailure r && decide (nowMs - r.startedAtMs ≤ pol.keepFailureDays * 86400000)
      then setAdd acc r.dir
      else acc)
    ks1

/-- `keep` (line 108): runs whose dir is in the keep set. -/
def keepOf (runs : List RunInfo) (pol : GCPolicy) (nowMs : Int) : List RunInfo :=
  runs.filter fun r => (keepSetOf runs pol nowMs).contains r.dir

/-- `deletable` (line 109): runs whose dir is not in the keep set. -/
def deletableOf (runs : List RunInfo) (pol : GCPolicy) (nowMs : Int) : List RunInfo :=
  runs.filter fun r => !(keepSetOf runs pol nowMs).contains r.dir

/-- Ascending comparison by `startedAt` used by `deleteOldestFirst`'s
`sort((a, b) => a.startedAt.getTime() - b.startedAt.getTime())`. -/
def runLe (a b : RunInfo) : Prop :=
  a.startedAtMs ≤ b.startedAtMs

instance : DecidableRel runLe :=
  fun a b => Int.decLe a.startedAtMs b.startedAtMs

/-- Stable ascending sort by `startedAt` (oldest first).  JS `sort` with the
numeric comparator is a stable sort ordered exactly like this insertion
sort. -/
def sortOldest (l : List RunInfo) : List RunInfo :=
  List.insertionSort runLe l

/-- The deletion loop of `deleteOldestFirst` (lines 114–121): walk the
sorted candidates, stopping as soon as `afterBytes ≤ maxBytes`, otherwise
marking the run and subtracting its size. -/
def delLoop (maxB : Int) : List RunInfo → Int → List RunInfo × Int
  | [], after => ([], after)
  | r :: rs, after =>
    if after ≤ maxB then ([], after)
    else
      let p := delLoop maxB rs (after - (r.sizeBytes : Int))
      (r :: p.1, p.2)

/-- `planGC` (`src/lib/gc.ts` lines 83–143) as a pure function of the run
listing (the source obtains it from `listRuns`, already sorted newest
first), the policy, and the current time. -/
def planGC (runs : List RunInfo) (pol : GCPolicy) (nowMs : Int) : GCPlan :=
  let totalBytes := sumSizes runs
  let p1 := delLoop pol.maxBytes (sortOldest (deletableOf runs pol nowMs)) totalBytes
  let pd :=
    if p1.2 > pol.maxBytes then
      let remainingKeep := (keepOf runs pol nowMs).filter
        fun r => !(p1.1.any fun d => d.dir == r.dir)
      let p2 := delLoop pol.maxBytes (sortOldest remainingKeep) p1.2
      (p1.1 ++ p2.1, p2.2)
    else p1
  { keepLast := pol.keepLast
    keepFailureDays := pol.keepFailureDays
    maxBytes := pol.maxBytes
    totalRuns := runs.length
    totalBytes := totalBytes
    keep := runs.filter fun r => !(pd.1.any fun d => d.dir == r.dir)
    delete := pd.1
    afterBytes := pd.2 }

/-- `executeGC` (`src/lib/gc.ts` lines 145–153) over an abstract filesystem
view `fsMtime : dir ↦ current mtime (or `none` when the directory is
gone)`: returns the list of directories actually deleted.  A planned
deletion is skipped when the directory no longer exists, or when the
recorded `mtimeMs` is truthy (non-zero) and differs from the re-statted
mtime. -/
def executeGC (plan : GCPlan) (dryRun : Bool) (fsMtime : String → Option Int) :
    List String :=
  if dryRun then []
  else
    plan.delete.filterMap fun r =>
      match fsMtime r.dir with
      | none => none
      | some m => if r.mtimeMs ≠ (0 : Int) ∧ m ≠ r.mtimeMs then none else some r.dir

/-! ### Claims C3 and C4: GC planning -/

theorem sumSizes_nonneg (l : List RunInfo) : 0 ≤ sumSizes l := by
  refine List.sum_nonneg ?_
  intro a ha
  simp only [List.mem_map] at ha
  obtain ⟨r, _, rfl⟩ := ha
  exact Int.natCast_nonneg _

theorem sumSizes_cons (r : RunInfo) (rs : List RunInfo) :
    sumSizes (r :: rs) = (r.sizeBytes : Int) + sumSizes rs := by
  simp [sumSizes]

theorem sumSizes_sortOldest (l : List RunInfo) : sumSizes (sortOldest l) = sumSizes l := by
  have h := ((List.perm_insertionSort runLe l).map fun r => (r.sizeBytes : Int)).sum_eq
  simpa [sumSizes, sortOldest] using h

theorem mem_sortOldest {l : List RunInfo} {r : RunInfo} :
    r ∈ sortOldest l ↔ r ∈ l :=
  (List.perm_insertionSort runLe l).mem_iff

theorem delLoop_all (maxB : Int) (l : List RunInfo) (after : Int)
    (h : after - sumSizes l > maxB) :
    delLoop maxB l after = (l, after - sumSizes l) := by
  induction l generalizing after with
  | nil => simp [delLoop, sumSizes]
  | cons r rs ih =>
    have hs := sumSizes_cons r rs
    have hr : (0 : Int) ≤ (r.sizeBytes : Int) := Int.natCast_nonneg _
    have hrs := sumSizes_nonneg rs
    have hgt : ¬(after ≤ maxB) := by omega
    have hrec := ih (after - (r.sizeBytes : Int)) (by omega)
    simp only [delLoop, if_neg hgt, hrec, Prod.mk.injEq]
    refine ⟨?_, ?_⟩ <;> first
    | trivial
    | omega

theorem delLoop_split (maxB : Int) (l : List RunInfo) (after : Int) :
    ∃ rest, (delLoop maxB l after).1 ++ rest = l := by
  induction l generalizing after with
  | nil => exact ⟨[], rfl⟩
  | cons r rs ih =>
    by_cases hle : after ≤ maxB
    · exact ⟨r :: rs, by simp [delLoop, hle]⟩
    · obtain ⟨rest, hrest⟩ := ih (after - (r.sizeBytes : Int))
      exact ⟨rest, by simp [delLoop, hle, hrest]⟩

theorem delLoop_budget (maxB : Int) (l : List RunInfo) (after : Int) :
    (delLoop maxB l after).2 ≤ maxB ∨ (delLoop maxB l after).1 = l := by
  induction l generalizing after with
  | nil => right; rfl
  | cons r rs ih =>
    by_cases hle : after ≤ maxB
    · left
      simp [delLoop, hle]
    · rcases ih (after - (r.sizeBytes : Int)) with h | h
      · left
        simpa [delLoop, hle] using h
      · right
        simp [delLoop, hle, h]

theorem keepOf_deletableOf_disjoint_dirs (runs : List RunInfo) (pol : GCPolicy)
    (nowMs : Int) (k d : RunInfo) (hk : k ∈ keepOf runs pol nowMs)
    (hd : d ∈ deletableOf runs pol nowMs) : d.dir ≠ k.dir := by
  simp only [keepOf, List.mem_filter] at hk
  simp only [deletableOf, List.mem_filter, Bool.not_eq_true'] at hd
  intro he
  rw [← he] at hk
  rw [hd.2] at hk
  exact Bool.noConfusion hk.2

/-- Claim C4 (confirmed): whenever the byte budget is still exceeded after
every non-protected run has been marked (the total minus the whole
deletable set still exceeds `maxBytes`), the plan's delete list is exactly
the deletable runs oldest-first followed by a prefix of the protected runs
oldest-first, deletion from the protected set stops once `afterBytes ≤
maxBytes` (or the protected set is exhausted), and every non-protected run
is marked — so no protected run is ever deleted before all non-protected
runs. -/
theorem planGC_pressure (runs : List RunInfo) (pol : GCPolicy) (nowMs : Int)
    (h : sumSizes runs - sumSizes (deletableOf runs pol nowMs) > pol.maxBytes) :
    (∀ r ∈ deletableOf runs pol nowMs, r ∈ (planGC runs pol nowMs).delete) ∧
    ∃ kd rest,
      (planGC runs pol nowMs).delete = sortOldest (deletableOf runs pol nowMs) ++ kd ∧
      kd ++ rest = sortOldest (keepOf runs pol nowMs) ∧
      ((planGC runs pol nowMs).afterBytes ≤ pol.maxBytes ∨ rest = []) := by
  have hsum : sumSizes runs - sumSizes (sortOldest (deletableOf runs pol nowMs)) >
      pol.maxBytes := by
    rw [sumSizes_sortOldest]
    exact h
  have hp1 : delLoop pol.maxBytes (sortOldest (deletableOf runs pol nowMs))
      (sumSizes runs) =
      (sortOldest (deletableOf runs pol nowMs),
        sumSizes runs - sumSizes (sortOldest (deletableOf runs pol nowMs))) :=
    delLoop_all _ _ _ hsum
  have hfilter : (keepOf runs pol nowMs).filter
      (fun r => !((sortOldest (deletableOf runs pol nowMs)).any fun d => d.dir == r.dir)) =
      keepOf runs pol nowMs := by
    rw [List.filter_eq_self]
    intro k hk
    simp only [Bool.not_eq_eq_eq_not, Bool.not_true, List.any_eq_false]
    intro d hd hbeq
    exact keepOf_deletableOf_disjoint_dirs runs pol nowMs k d hk
      (mem_sortOldest.mp hd) (eq_of_beq hbeq)
  have hplan : (planGC runs pol nowMs).delete =
      sortOldest (deletableOf runs pol nowMs) ++
        (delLoop pol.maxBytes (sortOldest (keepOf runs pol nowMs))
          (sumSizes runs - sumSizes (sortOldest (deletableOf runs pol nowMs)))).1 ∧
      (planGC runs pol nowMs).afterBytes =
        (delLoop pol.maxBytes (sortOldest (keepOf runs pol nowMs))
          (sumSizes runs - sumSizes (sortOldest (deletableOf runs pol nowMs)))).2 := by
    simp only [planGC, hp1, hsum, if_pos, hfilter, gt_iff_lt]
    exact ⟨trivial, trivial⟩
  obtain ⟨hdel, hafter⟩ := hplan
  obtain ⟨rest, hrest⟩ := delLoop_split pol.maxBytes
    (sortOldest (keepOf runs pol nowMs))
    (sumSizes runs - sumSizes (sortOldest (deletableOf runs pol nowMs)))
  refine ⟨?_, _, rest, hdel, hrest, ?_⟩
  · intro r hr
    rw [hdel]
    exact List.mem_append_left _ (mem_sortOldest.mpr hr)
  · rcases delLoop_budget pol.maxBytes (sortOldest (keepOf runs pol nowMs))
      (sumSizes runs - sumSizes (sortOldest (deletableOf runs pol nowMs))) with hb | hb
    · left
      rw [hafter]
      exact hb
    · right
      rw [hb] at hrest
      have h0 : sortOldest (keepOf runs pol nowMs) ++ rest =
          sortOldest (keepOf runs pol nowMs) ++ [] := by simpa using hrest
      exact List.append_cancel_left h0

/-- A newest run protected by `keepLast = 1`. -/
def runA : RunInfo := ⟨"a", 20, 0, some true, 10⟩

/-- An older run outside the protection set. -/
def runB : RunInfo := ⟨"b", 10, 0, some true, 10⟩

/-- Policy with `keepLast = 1` and a byte budget below one run's size. -/
def polC4 : GCPolicy := ⟨1, 0, 5⟩

/-- Witness for C4: with two runs of 10 bytes, `keepLast = 1` and
`maxBytes = 5`, the budget is still exceeded after deleting the
non-protected run, and the planner's delete list continues into the
protected set. -/
theorem planGC_pressure_witness :
    sumSizes [runA, runB] - sumSizes (deletableOf [runA, runB] polC4 100) >
      polC4.maxBytes ∧
    ((∀ r ∈ deletableOf [runA, runB] polC4 100,
        r ∈ (planGC [runA, runB] polC4 100).delete) ∧
      ∃ kd rest,
        (planGC [runA, runB] polC4 100).delete =
          sortOldest (deletableOf [runA, runB] polC4 100) ++ kd ∧
        kd ++ rest = sortOldest (keepOf [runA, runB] polC4 100) ∧
        ((planGC [runA, runB] polC4 100).afterBytes ≤ polC4.maxBytes ∨ rest = [])) :=
  ⟨by decide, planGC_pressure [runA, runB] polC4 100 (by decide)⟩

/-- One run of the C3 scenario: successful outcome, zero mtime, size `s`. -/
def c3run (d : String) (tMs : Int) (s : Nat) : RunInfo :=
  ⟨d, tMs, 0, some true, s⟩

/-- Five equal-size runs, newest first (as `listRuns` returns them). -/
def c3runs (s : Nat) : List RunInfo :=
  [c3run "r1" 50 s, c3run "r2" 40 s, c3run "r3" 30 s,
   c3run "r4" 20 s, c3run "r5" 10 s]

/-- The C3 policy: `keepLast = 2`, no failure retention, budget `M`. -/
def c3pol (M : Int) : GCPolicy := ⟨2, 0, M⟩

/-- Counterexample to claim C3 as stated: with 5 equal runs of 10 bytes and
`maxBytes = 50` — "large enough", at least the total size of all runs — the
planner deletes nothing at all (deletion happens only under byte pressure),
instead of deleting the 3 runs outside the `keepLast = 2` set. -/
theorem planGC_large_budget_counterexample :
    sumSizes (c3runs 10) = 50 ∧
    (planGC (c3runs 10) (c3pol 50) 100).delete = [] ∧
    (planGC (c3runs 10) (c3pol 50) 100).keep = c3runs 10 := by
  refine ⟨by decide, by decide, by decide⟩

/-- Claim C3 (amended): for 5 equal-size successful runs with `keepLast = 2`,
the planner keeps exactly the 2 newest and deletes the other 3 oldest-first
exactly when the byte budget forces it — `2s ≤ maxBytes < 3s` — ending with
`afterBytes = 2s`. -/
theorem planGC_keepLast_size_pressure (s : Nat) (M : Int)
    (h2 : 2 * (s : Int) ≤ M) (h3 : M < 3 * (s : Int)) :
    (planGC (c3runs s) (c3pol M) 100).delete =
      [c3run "r5" 10 s, c3run "r4" 20 s, c3run "r3" 30 s] ∧
    (planGC (c3runs s) (c3pol M) 100).keep =
      [c3run "r1" 50 s, c3run "r2" 40 s] ∧
    (planGC (c3runs s) (c3pol M) 100).afterBytes = 2 * (s : Int) := by
  have hs0 : (0 : Int) ≤ (s : Int) := Int.natCast_nonneg s
  have hsortD : sortOldest (deletableOf (c3runs s) (c3pol M) 100) =
      [c3run "r5" 10 s, c3run "r4" 20 s, c3run "r3" 30 s] := rfl
  have hK : keepOf (c3runs s) (c3pol M) 100 =
      [c3run "r1" 50 s, c3run "r2" 40 s] := rfl
  have h5 : sumSizes (c3runs s) = 5 * (s : Int) := by
    simp [sumSizes, c3runs, c3run]
    ring
  have c1 : ¬(5 * (s : Int) ≤ M) := by omega
  have c2 : ¬(5 * (s : Int) - (s : Int) ≤ M) := by omega
  have c3x : ¬(5 * (s : Int) - (s : Int) - (s : Int) ≤ M) := by omega
  have hL : delLoop M [c3run "r5" 10 s, c3run "r4" 20 s, c3run "r3" 30 s]
      (5 * (s : Int)) =
      ([c3run "r5" 10 s, c3run "r4" 20 s, c3run "r3" 30 s], 2 * (s : Int)) := by
    simp only [delLoop, c3run, c1, c2, c3x, if_false, Prod.mk.injEq]
    refine ⟨?_, ?_⟩ <;> first
    | trivial
    | omega
  have hcond : ¬(2 * (s : Int) > M) := by omega
  simp only [planGC, c3pol, hsortD, hK, h5, hL, hcond, if_false, gt_iff_lt, not_lt] at *
  exact ⟨trivial, rfl, trivial⟩

/-- Witness for the amended C3 theorem at `s = 10`, `maxBytes = 20`. -/
theorem planGC_keepLast_size_pressure_witness :
    (planGC (c3runs 10) (c3pol 20) 100).delete =
      [c3run "r5" 10 10, c3run "r4" 20 10, c3run "r3" 30 10] ∧
    (planGC (c3runs 10) (c3pol 20) 100).keep =
      [c3run "r1" 50 10, c3run "r2" 40 10] ∧
    (planGC (c3runs 10) (c3pol 20) 100).afterBytes = 2 * ((10 : Nat) : Int) :=
  planGC_keepLast_size_pressure 10 20 (by decide) (by decide)

/-! ### Claim C8: GC execution mtime re-check -/

/-- A planned deletion whose recorded `mtimeMs` is `0` (as `listRuns`
records when its stat failed at listing time). -/
def runZeroMtime : RunInfo := ⟨"d", 10, 0, some true, 5⟩

/-- A plan containing only that run. -/
def planC8 : GCPlan :=
  { keepLast := 2, keepFailureDays := 0, maxBytes := 100, totalRuns := 1,
    totalBytes := 5, keep := [], delete := [runZeroMtime], afterBytes := 5 }

/-- A filesystem view where the directory still exists with mtime 5. -/
def fsC8 : String → Option Int :=
  fun d => if d = "d" then some 5 else none

/-- Counterexample to claim C8 as stated: the plan records `mtimeMs = 0` for
`"d"`, the re-statted mtime is `5 ≠ 0`, yet the executor deletes the
directory — the source's guard `if (r.mtimeMs && st.mtimeMs !== r.mtimeMs)`
skips the mtime comparison entirely when the recorded value is falsy
(zero). -/
theorem executeGC_zero_mtime_counterexample :
    executeGC planC8 false fsC8 = ["d"] ∧
    runZeroMtime ∈ planC8.delete ∧
    runZeroMtime.mtimeMs = 0 ∧
    fsC8 runZeroMtime.dir = some 5 ∧
    (5 : Int) ≠ runZeroMtime.mtimeMs := by
  refine ⟨by decide, by decide, by decide, by decide, by decide⟩

/-- Claim C8 (amended): in dry-run mode nothing is deleted; otherwise a
directory is deleted exactly when some planned run has that directory, the
directory still exists at execution time, and either the plan's recorded
`mtimeMs` is zero (no usable recorded mtime — the check is skipped) or the
re-statted mtime equals the recorded one.  In particular a missing
directory is always skipped, and an mtime mismatch is skipped whenever the
recorded mtime is non-zero. -/
theorem executeGC_skip_semantics :
    (∀ (plan : GCPlan) (fs : String → Option Int), executeGC plan true fs = []) ∧
    (∀ (plan : GCPlan) (fs : String → Option Int) (d : String),
      d ∈ executeGC plan false fs ↔
        ∃ r ∈ plan.delete, r.dir = d ∧
          ∃ m, fs d = some m ∧ (r.mtimeMs = 0 ∨ m = r.mtimeMs)) := by
  constructor
  · intro plan fs
    rfl
  · intro plan fs d
    simp only [executeGC, Bool.false_eq_true, if_false, List.mem_filterMap]
    constructor
    · rintro ⟨r, hr, heq⟩
      cases hfs : fs r.dir with
      | none =>
        simp only [hfs] at heq
        cases heq
      | some m =>
        simp only [hfs] at heq
        by_cases hp : r.mtimeMs ≠ (0 : Int) ∧ m ≠ r.mtimeMs
        · rw [if_pos hp] at heq
          cases heq
        · rw [if_neg hp] at heq
          have hd : r.dir = d := by
            injection heq
          push_neg at hp
          refine ⟨r, hr, hd, m, by rw [← hd]; exact hfs, ?_⟩
          by_cases h0 : r.mtimeMs = 0
          · exact Or.inl h0
          · exact Or.inr (hp h0)
    · rintro ⟨r, hr, hd, m, hfs, hok⟩
      refine ⟨r, hr, ?_⟩
      rw [hd]
      simp only [hfs]
      rw [if_neg ?_]
      · rintro ⟨h0, hm⟩
        rcases hok with h | h
        · exact h0 h
        · exact hm h
